import Mathlib

/-!
Verification of the parameterized-test generator in `multitest.py`
(repository yan123/BitBox).

The development is a shallow embedding of the Python source:

* Python strings are modelled as `List Char` (`Str`), values that appear in
  parameter combinations are modelled by their stringified form (`str(v)`),
  since every use of a value in the core (name synthesis, docstring
  substitution) goes through stringification.
* `pystr`, `mix_params`, `zip_params` are translated directly from the
  functions of the same name in the source.  `itertools.product` becomes
  `prodLists`; `itertools.izip` becomes `izipN` (it truncates to the
  shortest input, and `izip()` of an empty argument tuple is the empty
  iterator).
* `string.Template(...).safe_substitute(...)` is embedded as `safeSub`
  (default Python 2.7 template pattern: `$$` escape, `$name`, `${name}`,
  an invalid `$` is left verbatim).  `string.Template(None)` raises a
  `TypeError` inside `pattern.sub`, which `renderDoc` models as an error.
* `MultiTestMeta.__new__` is embedded as `spawn`: the class attribute
  table is an association list, the marked-method snapshot is
  `markedTests`, `del attrs[name]` is `eraseKey`, the uniqueness loop is
  `findSuffix`/`resolveName`, and any Python exception raised during
  expansion is an `Except.error` result (class construction fails, the
  suite object is never produced).
-/

set_option autoImplicit false

namespace Multitest

/-- Python strings, modelled as lists of characters. -/
abbrev Str := List Char

/-! ### NameSanitizer: `AS_WORD` and `pystr` -/

/-- The `AS_WORD` symbol-to-word table from the source, as the association
list it is written as in the Python dict literal. -/
def AS_WORD_TABLE : List (Char × Str) :=
  [('.', ['_']),
   ('-', ['m', 'i', 'n', 'u', 's']),
   ('+', ['p', 'l', 'u', 's']),
   ('#', ['n', 'u', 'm']),
   ('!', ['e', 'x', 'c', 'l']),
   ('"', ['q', 'u', 'o', 't']),
   ('$', ['d', 'o', 'l', 'l', 'a', 'r']),
   ('%', ['p', 'e', 'r', 'c', 'n', 't']),
   ('&', ['a', 'm', 'p']),
   ('/', ['s', 'o', 'l']),
   ('\\', ['b', 's', 'o', 'l']),
   ('=', ['e', 'q']),
   (',', ['c', 'o', 'm', 'm', 'a']),
   (';', ['s', 'e', 'm', 'i']),
   (':', ['c', 'o', 'l', 'o', 'n'])]

/-- `AS_WORD.get(x, ...)` without the default: dictionary lookup. -/
def AS_WORD (c : Char) : Option Str :=
  (AS_WORD_TABLE.find? (fun p => p.1 == c)).map (·.2)

/-- `pystr = lambda n: ''.join(x if x.isalnum() else AS_WORD.get(x, '_') for x in str(n))`.
The argument is already the stringified value. -/
def pystr (n : Str) : Str :=
  n.flatMap (fun x => if x.isAlphanum then [x] else (AS_WORD x).getD ['_'])

/-! ### Identifier syntax (Python 2 bare identifiers: `[_a-zA-Z][_a-zA-Z0-9]*`) -/

def isIdStart (c : Char) : Bool := c = '_' || c.isAlpha

def isIdCont (c : Char) : Bool := isIdStart c || c.isDigit

/-- A syntactically valid bare identifier. -/
def validId (s : Str) : Bool :=
  match s with
  | [] => false
  | c :: cs => isIdStart c && cs.all isIdCont

/-! ### Decimal rendering of naturals (`str(i)` for a non-negative int) -/

/-- Digit-accumulating loop; the fuel argument only makes the recursion
structural, `n + 1` units always suffice. -/
def natStrAux : Nat → Nat → Str → Str
  | 0, _, acc => acc
  | fuel + 1, n, acc =>
    if n < 10 then Nat.digitChar n :: acc
    else natStrAux fuel (n / 10) (Nat.digitChar (n % 10) :: acc)

/-- `str(i)` for a natural number: decimal digits. -/
def natStr (n : Nat) : Str := natStrAux (n + 1) n []

/-- `'_'.join(xs)`. -/
def joinU : List Str → Str
  | [] => []
  | [s] => s
  | s :: s' :: ss => s ++ '_' :: joinU (s' :: ss)

/-! ### ParamCombinator: `mix_params` (CARTESIAN) and `zip_params` (ZIPPED) -/

/-- `itertools.product(*ls)`: every choice of one element per input list,
last axis fastest, `[[]]` for no axes. -/
def prodLists {α : Type} : List (List α) → List (List α)
  | [] => [[]]
  | l :: ls => l.flatMap (fun x => (prodLists ls).map (x :: ·))

/-- `mix_params(args, kwargs)` from the source: the product of all
positional slots followed by all named slots, split back into a
positional tuple and a keyword dictionary (modelled as an association
list in key declaration order). -/
def mix_params {α : Type} (args : List (List α)) (kwargs : List (Str × List α)) :
    List (List α × List (Str × α)) :=
  (prodLists (args ++ kwargs.map (·.2))).map
    (fun i => (i.take args.length, (kwargs.map (·.1)).zip (i.drop args.length)))

/-- Loop of `izipN`: advance every iterator in lockstep until one is
exhausted; structural on the first input. -/
def izipAux {α : Type} : List α → List (List α) → List (List α)
  | [], _ => []
  | a :: l, ls =>
    if ls.all (fun x => !x.isEmpty) then
      (a :: ls.filterMap List.head?) :: izipAux l (ls.map List.tail)
    else []

/-- `itertools.izip(*ls)`: element-wise tuples, truncating to the shortest
input; with no inputs it is the empty iterator. -/
def izipN {α : Type} : List (List α) → List (List α)
  | [] => []
  | l :: ls => izipAux l ls

/-- `zip_params(args, kwargs)` from the source:
`izip(izip(*args), (dict(zip(kwargs.keys(), v)) for v in izip(*kwargs.values())))`. -/
def zip_params {α : Type} (args : List (List α)) (kwargs : List (Str × List α)) :
    List (List α × List (Str × α)) :=
  (izipN args).zip
    ((izipN (kwargs.map (·.2))).map (fun v => (kwargs.map (·.1)).zip v))

/-- The number of elements `izip(*ls)` yields: 0 for no inputs, otherwise
the minimum input length. -/
def groupLen {α : Type} : List (List α) → Nat
  | [] => 0
  | l :: ls => ls.foldr (fun x m => Nat.min x.length m) l.length

/-! ### DocTemplateRenderer: `string.Template(...).safe_substitute(...)` -/

/-- Lookup in the substitution dictionary; entries added later overwrite
earlier ones, as `dict.update` does. -/
def lookupSub : List (Str × Str) → Str → Option Str
  | [], _ => none
  | (k', v) :: rest, k =>
    match lookupSub rest k with
    | some v' => some v'
    | none => if k' = k then some v else none

/-- The substitution dictionary built in `MultiTestMeta.__new__`:
`arg0`, `arg1`, ... bound to the positional values by index, then updated
with the keyword values. -/
def subDict (args : List Str) (kwargs : List (Str × Str)) : List (Str × Str) :=
  (args.enum.map (fun p => (['a', 'r', 'g'] ++ natStr p.1, p.2))) ++ kwargs

/-- One pass of `Template.safe_substitute` over the template text, with the
default Python 2.7 pattern: `$$` is an escaped delimiter, `$name` and
`${name}` (identifier `[_a-z][_a-z0-9]*`, case-insensitive) are
placeholders replaced when `name` is in the dictionary and left verbatim
otherwise, and a `$` followed by anything else is left verbatim.  The
fuel argument only makes the recursion structural; `s.length` units
always suffice because every step consumes at least one character. -/
def safeSubAux (m : List (Str × Str)) : Nat → Str → Str
  | 0, s => s
  | fuel + 1, s =>
    match s with
    | [] => []
    | c :: rest =>
      if c = '$' then
        match rest with
        | [] => ['$']
        | d :: rest2 =>
          if d = '$' then '$' :: safeSubAux m fuel rest2
          else if d = '{' then
            match rest2 with
            | [] => '$' :: safeSubAux m fuel rest
            | e :: rest3 =>
              if isIdStart e then
                match rest3.dropWhile isIdCont with
                | [] => '$' :: safeSubAux m fuel rest
                | f :: rest5 =>
                  if f = '}' then
                    (match lookupSub m (e :: rest3.takeWhile isIdCont) with
                     | some v => v
                     | none => '$' :: '{' :: (e :: rest3.takeWhile isIdCont ++ ['}'])) ++
                      safeSubAux m fuel rest5
                  else '$' :: safeSubAux m fuel rest
              else '$' :: safeSubAux m fuel rest
          else if isIdStart d then
            (match lookupSub m (d :: rest2.takeWhile isIdCont) with
             | some v => v
             | none => '$' :: d :: rest2.takeWhile isIdCont) ++
              safeSubAux m fuel (rest2.dropWhile isIdCont)
          else '$' :: safeSubAux m fuel rest
      else c :: safeSubAux m fuel rest

/-- `Template(s).safe_substitute(m)`. -/
def safeSub (m : List (Str × Str)) (s : Str) : Str := safeSubAux m s.length s

/-- Errors that abort expansion of a suite definition (really Python
exceptions propagating out of `MultiTestMeta.__new__`). -/
inductive SpawnErr : Type
  /-- The `RuntimeError` of the uniqueness loop. -/
  | nameExhausted : SpawnErr
  /-- The `TypeError` raised by `Template(None).safe_substitute(...)` when
  the decorated method has no docstring. -/
  | docTypeError : SpawnErr
deriving DecidableEq

/-- `string.Template(method.__doc__).safe_substitute(sub_dict)`:
`Template` stores its argument unchecked, and `safe_substitute` passes it
to `pattern.sub`, which raises `TypeError` when the stored template is
`None`. -/
def renderDoc (doc : Option Str) (m : List (Str × Str)) : Except SpawnErr Str :=
  match doc with
  | some s => Except.ok (safeSub m s)
  | none => Except.error SpawnErr.docTypeError

/-! ### Template-text tokens, for stating what `safeSub` does

A template is described by its parse: literal chunks, escaped delimiters
and placeholders.  `serializeAll` gives the template text of such a
description, `renderAll` gives the text the spec says substitution must
produce, and `wfToks` states that the description really is the parse of
its own serialization (literal chunks carry no delimiter, placeholder
keys are identifiers, and a bare `$name` placeholder is not followed by a
character that would extend the identifier). -/

inductive Tok : Type
  | lit : Str → Tok
  | esc : Tok
  | named : Str → Tok
  | braced : Str → Tok
deriving DecidableEq

def serializeTok : Tok → Str
  | Tok.lit s => s
  | Tok.esc => ['$', '$']
  | Tok.named k => '$' :: k
  | Tok.braced k => '$' :: '{' :: (k ++ ['}'])

def serializeAll (ts : List Tok) : Str := (ts.map serializeTok).flatten

/-- The substituted form of one token: placeholders whose key is present
in the dictionary become the bound value, absent ones stay verbatim. -/
def renderTok (m : List (Str × Str)) : Tok → Str
  | Tok.lit s => s
  | Tok.esc => ['$']
  | Tok.named k =>
    match lookupSub m k with
    | some v => v
    | none => '$' :: k
  | Tok.braced k =>
    match lookupSub m k with
    | some v => v
    | none => '$' :: '{' :: (k ++ ['}'])

def renderAll (m : List (Str × Str)) (ts : List Tok) : Str :=
  (ts.map (renderTok m)).flatten

def wfToks : List Tok → Bool
  | [] => true
  | Tok.lit s :: ts => s.all (fun c => !(c = '$')) && wfToks ts
  | Tok.esc :: ts => wfToks ts
  | Tok.braced k :: ts => validId k && wfToks ts
  | Tok.named k :: ts =>
    validId k &&
      (match serializeAll ts with
       | [] => true
       | c :: _ => !isIdCont c) &&
      wfToks ts

/-! ### CaseNameBuilder: sorting of keyword items and name synthesis -/

/-- Lexicographic string comparison, as Python compares `str` values. -/
def lexLe : Str → Str → Bool
  | [], _ => true
  | _ :: _, [] => false
  | a :: s, b :: t => if a < b then true else if a = b then lexLe s t else false

/-- Comparison of `(key, value)` items, as Python's `sorted` compares the
tuples yielded by `dict.items()`: by key first, then by value.  Values
are modelled by their string forms. -/
def pairLe (p q : Str × Str) : Prop :=
  if p.1 = q.1 then lexLe p.2 q.2 = true else lexLe p.1 q.1 = true

instance : DecidableRel pairLe := fun p q => by
  unfold pairLe; infer_instance

/-- `sorted(test_kwargs.items())`. -/
def sortPairs (kwargs : List (Str × Str)) : List (Str × Str) :=
  List.insertionSort pairLe kwargs

/-- The candidate case name built in `MultiTestMeta.__new__`:
`name + ('_' if test_args or test_kwargs else '') + '_'.join(pystr(a) ...)
+ ('_' if test_args and test_kwargs else '') + '_'.join(pystr(k)+'_'+pystr(v) ...)`,
keyword items sorted. -/
def buildName (name : Str) (args : List Str) (kwargs : List (Str × Str)) : Str :=
  name ++
    (if args ≠ [] ∨ kwargs ≠ [] then ['_'] else []) ++
    joinU (args.map pystr) ++
    (if args ≠ [] ∧ kwargs ≠ [] then ['_'] else []) ++
    joinU ((sortPairs kwargs).map (fun kv => pystr kv.1 ++ '_' :: pystr kv.2))

/-- `prefix_name + '_' + str(i)`. -/
def suffixName (cand : Str) (i : Nat) : Str := cand ++ '_' :: natStr i

/-- The loop `for i in range(1023)` of the uniqueness check: try
`cand_i`, `cand_(i+1)`, ... while the fuel lasts, and raise the
`RuntimeError` (1024 similarly named methods) when it runs out. -/
def findSuffix (used : List Str) (cand : Str) : Nat → Nat → Except SpawnErr Str
  | _, 0 => Except.error SpawnErr.nameExhausted
  | i, fuel + 1 =>
    if suffixName cand i ∈ used then findSuffix used cand (i + 1) fuel
    else Except.ok (suffixName cand i)

/-- The whole `# Make sure actual_name is unique:` block: keep the
candidate when it is free, otherwise run the suffix loop. -/
def resolveName (used : List Str) (cand : Str) : Except SpawnErr Str :=
  if cand ∈ used then findSuffix used cand 0 1023 else Except.ok cand

/-! ### TestCaseSpawner: `MultiTestMeta.__new__` -/

/-- A function attribute of the class body: its docstring, the list of
combinations its `_metatest_params` generator yields (empty when the
attribute carries no such marker, or after the generator is exhausted),
and the keys of its `__dict__` (where the decorator stores
`_metatest_params`, and where any user metadata lives). -/
structure Method : Type where
  doc : Option Str
  combos : List (List Str × List (Str × Str))
  dict : List Str
deriving DecidableEq

/-- One entry of the class attribute table.  `plain` models non-callable
attributes; `func base m` models a function, where the ghost field `base`
records the name of the template whose callable a generated wrapper
invokes (the `me=method` default argument of `actual_test`) and is `none`
for directly declared functions. -/
inductive Entry : Type
  | plain : Entry
  | func : Option Str → Method → Entry
deriving DecidableEq

/-- The class attribute table `attrs`, in insertion order. -/
abbrev Suite := List (Str × Entry)

def keysOf (s : Suite) : List Str := s.map (·.1)

/-- `'_metatest_params'`. -/
def markerName : Str :=
  ['_', 'm', 'e', 't', 'a', 't', 'e', 's', 't', '_', 'p', 'a', 'r', 'a', 'm', 's']

/-- `callable(v) and hasattr(v, '_metatest_params')`. -/
def flagged : Entry → Bool
  | Entry.plain => false
  | Entry.func _ m => decide (markerName ∈ m.dict)

/-- The snapshot `marked_tests = [(k, v) for k, v in attrs.items() if
callable(v) and hasattr(v, '_metatest_params')]`. -/
def markedTests (attrs : Suite) : List (Str × Method) :=
  attrs.filterMap (fun p =>
    match p.2 with
    | Entry.func _ m => if markerName ∈ m.dict then some (p.1, m) else none
    | Entry.plain => none)

/-- `del attrs[name]`. -/
def eraseKey (k : Str) : Suite → Suite
  | [] => []
  | (k', e) :: rest => if k' = k then rest else (k', e) :: eraseKey k rest

/-- The body of the inner loop of `MultiTestMeta.__new__` for one
combination: render the docstring, build the candidate name, make it
unique against the current attribute table, and insert the wrapper.  The
wrapper's `__doc__` is the rendered docstring, its `_metatest_params`
generator is the template's own, exhausted, generator (so it yields no
further combinations), and its `__dict__` is the template's `__dict__`
(the assignment `actual_test.__dict__ = method.__dict__`). -/
def spawnCase (name : Str) (m : Method) (attrs : Suite)
    (combo : List Str × List (Str × Str)) : Except SpawnErr Suite :=
  match renderDoc m.doc (subDict combo.1 combo.2) with
  | Except.error e => Except.error e
  | Except.ok doc =>
    match resolveName (keysOf attrs) (buildName name combo.1 combo.2) with
    | Except.error e => Except.error e
    | Except.ok actual =>
      Except.ok (attrs ++ [(actual, Entry.func (some name) ⟨some doc, [], m.dict⟩)])

/-- The loop `for test_args, test_kwargs in method._metatest_params`. -/
def spawnCombos (name : Str) (m : Method) :
    Suite → List (List Str × List (Str × Str)) → Except SpawnErr Suite
  | attrs, [] => Except.ok attrs
  | attrs, c :: cs =>
    match spawnCase name m attrs c with
    | Except.error e => Except.error e
    | Except.ok attrs' => spawnCombos name m attrs' cs

/-- The loop `for name, method in marked_tests`: delete the template,
then spawn one case per combination. -/
def spawnTemplates : Suite → List (Str × Method) → Except SpawnErr Suite
  | attrs, [] => Except.ok attrs
  | attrs, (name, m) :: rest =>
    match spawnCombos name m (eraseKey name attrs) m.combos with
    | Except.error e => Except.error e
    | Except.ok attrs' => spawnTemplates attrs' rest

/-- `MultiTestMeta.__new__` up to the final `type.__new__` call: the
transformation of the attribute table.  An `Except.error` result models
an exception propagating out of `__new__`, in which case no class object
is ever constructed. -/
def spawn (attrs : Suite) : Except SpawnErr Suite :=
  spawnTemplates attrs (markedTests attrs)

/-- Whether an entry is a generated wrapper case (carries the name of the
template its closure invokes). -/
def isSpawned : Entry → Bool
  | Entry.func (some _) _ => true
  | _ => false

/-- The generated cases on a surface: pairs of (case name, name of the
template the wrapper invokes). -/
def generatedPairs (s : Suite) : List (Str × Str) :=
  s.filterMap (fun p =>
    match p.2 with
    | Entry.func (some b) _ => some (p.1, b)
    | _ => none)

instance instDecEqExceptSpawn {α : Type} [DecidableEq α] :
    DecidableEq (Except SpawnErr α)
  | Except.error x, Except.error y =>
    if h : x = y then isTrue (by rw [h])
    else isFalse (fun hh => h (by cases hh; rfl))
  | Except.error _, Except.ok _ => isFalse (fun hh => by cases hh)
  | Except.ok _, Except.error _ => isFalse (fun hh => by cases hh)
  | Except.ok x, Except.ok y =>
    if h : x = y then isTrue (by rw [h])
    else isFalse (fun hh => h (by cases hh; rfl))

/-! ### Concrete inputs used by witnesses and counterexamples -/

/-- A template description exercising both a bound and an unbound
placeholder: `Doc $col $miss`. -/
def exToks : List Tok :=
  [Tok.lit ['D', 'o', 'c', ' '],
   Tok.named ['c', 'o', 'l'],
   Tok.lit [' '],
   Tok.named ['m', 'i', 's', 's']]

/-- The dictionary binding `col` to `a`. -/
def exKwargs : List (Str × Str) := [(['c', 'o', 'l'], ['a'])]

/-- A suite with one marked template whose method has no docstring. -/
def exSuiteNoDoc : Suite :=
  [(['t', 'e', 's', 't', '_', 'x'],
    Entry.func none ⟨none, [([], [])], [markerName]⟩)]

def exName : Str := ['t', 'e', 's', 't', '_', 'x']

/-- A marked template with an empty docstring and two one-positional-value
combinations. -/
def exMethod : Method :=
  ⟨some [], [([['1']], []), ([['2']], [])], [markerName]⟩

def exSuite : Suite := [(exName, Entry.func none exMethod)]

/-- The surface `spawn` produces from `exSuite`: the template is gone and
the two cases `test_x_1` and `test_x_2` are registered. -/
def exSuiteExpanded : Suite :=
  [(exName ++ ['_', '1'], Entry.func (some exName) ⟨some [], [], [markerName]⟩),
   (exName ++ ['_', '2'], Entry.func (some exName) ⟨some [], [], [markerName]⟩)]

/-- A marked template carrying one extra metadata key besides the
combination-spec marker. -/
def exMethod9 : Method :=
  ⟨some [], [([], [])], [markerName, ['t', 'a', 'g']]⟩

def exSuite9 : Suite := [(exName, Entry.func none exMethod9)]

/-! ## Lemmas about the combinators -/

theorem foldr_min_zero {α : Type} (ls : List (List α)) :
    ls.foldr (fun x m => Nat.min x.length m) 0 = 0 := by
  induction ls with
  | nil => rfl
  | cons l ls ih => simp [ih]

theorem foldr_min_of_mem_nil {α : Type} {ls : List (List α)} {x : List α}
    (hx : x ∈ ls) (h : x = []) (n : Nat) :
    ls.foldr (fun y m => Nat.min y.length m) n = 0 := by
  induction ls with
  | nil => cases hx
  | cons l ls ih =>
    rcases List.mem_cons.mp hx with rfl | hx'
    · subst h; simp
    · simp [ih hx']

theorem foldr_min_tail {α : Type} {ls : List (List α)} (h : ∀ x ∈ ls, x ≠ []) (n : Nat) :
    (ls.map List.tail).foldr (fun y m => Nat.min y.length m) n + 1
      = ls.foldr (fun y m => Nat.min y.length m) (n + 1) := by
  induction ls generalizing n with
  | nil => rfl
  | cons l ls ih =>
    have hl : l ≠ [] := h l (List.mem_cons_self ..)
    have hlen : l.tail.length + 1 = l.length := by
      cases l with
      | nil => exact absurd rfl hl
      | cons a t => simp
    have ih' := ih (fun x hx => h x (List.mem_cons_of_mem _ hx)) n
    simp only [List.map_cons, List.foldr_cons]
    rw [← hlen, ← ih']
    simp only [Nat.min_def]
    split <;> split <;> omega

theorem izipAux_length {α : Type} (l : List α) (ls : List (List α)) :
    (izipAux l ls).length = ls.foldr (fun x m => Nat.min x.length m) l.length := by
  induction l generalizing ls with
  | nil => simp [izipAux, foldr_min_zero]
  | cons a l ih =>
    by_cases h : ls.all (fun x => !x.isEmpty) = true
    · have hne : ∀ x ∈ ls, x ≠ [] := by
        intro x hx
        have := List.all_eq_true.mp h x hx
        simpa [List.isEmpty_iff] using this
      rw [izipAux, if_pos h]
      simp only [List.length_cons, ih]
      exact foldr_min_tail hne l.length
    · rw [izipAux, if_neg h]
      have : ∃ x ∈ ls, x = [] := by
        by_contra hc
        push_neg at hc
        apply h
        rw [List.all_eq_true]
        intro x hx
        simpa [List.isEmpty_iff] using hc x hx
      rcases this with ⟨x, hx, hxe⟩
      simp [foldr_min_of_mem_nil hx hxe]

theorem izipN_length {α : Type} (ls : List (List α)) :
    (izipN ls).length = groupLen ls := by
  cases ls with
  | nil => rfl
  | cons l ls => exact izipAux_length l ls

theorem flatMap_cons_length {α : Type} (l : List α) (P : List (List α)) :
    (l.flatMap (fun x => P.map (x :: ·))).length = l.length * P.length := by
  induction l with
  | nil => simp
  | cons a l ih =>
    simp [List.flatMap_cons, ih, Nat.succ_mul, Nat.add_comm]

theorem prodLists_length {α : Type} (ls : List (List α)) :
    (prodLists ls).length = (ls.map List.length).prod := by
  induction ls with
  | nil => rfl
  | cons l ls ih =>
    show (l.flatMap fun x => (prodLists ls).map (x :: ·)).length = _
    rw [flatMap_cons_length, ih]
    simp

/-! ## Claims about the combinators -/

/-- C2: for the CARTESIAN strategy, `mix_params` yields exactly the
product of the axis lengths (positional slots followed by named slots)
many combinations, and for zero axes exactly one combination: the empty
positional tuple with the empty named mapping. -/
theorem mix_params_count {α : Type} (args : List (List α)) (kwargs : List (Str × List α)) :
    (mix_params args kwargs).length = ((args ++ kwargs.map (·.2)).map List.length).prod
      ∧ mix_params ([] : List (List α)) ([] : List (Str × List α)) = [([], [])] := by
  constructor
  · simp [mix_params, prodLists_length]
  · rfl

/-- C10: the ZIPPED strategy with zero slots yields zero combinations
(`izip()` is the empty iterator), unlike CARTESIAN with zero axes, which
yields exactly one. -/
theorem zipped_empty_vs_cartesian_empty :
    zip_params ([] : List (List Str)) ([] : List (Str × List Str)) = []
      ∧ mix_params ([] : List (List Str)) ([] : List (Str × List Str)) = [([], [])] :=
  ⟨rfl, rfl⟩

/-- C1, counterexample: `zipped((1,2,3), col=['a','b'])` has slot lengths
3 and 2, yet `zip_params` does not fail — it silently truncates to the
shortest slot and yields 2 combinations.  There is no
`InvalidCombinationError` anywhere in the code: `zip_params` has no
failure path at all. -/
theorem zipped_mismatch_truncates :
    zip_params [[['1'], ['2'], ['3']]] [(['c', 'o', 'l'], [['a'], ['b']])]
      = [([['1']], [(['c', 'o', 'l'], ['a'])]), ([['2']], [(['c', 'o', 'l'], ['b'])])] := rfl

/-- C1, amended: `zip_params` never raises; it yields
`min(groupLen(positional slots), groupLen(named slots))` combinations,
where `groupLen` is 0 when the group has no slots and the minimum slot
length otherwise.  In particular unequal lengths are silently truncated
to the shortest slot, and all slots having length k yields exactly k
combinations only when at least one positional and at least one named
slot exist. -/
theorem zip_params_count {α : Type} (args : List (List α)) (kwargs : List (Str × List α)) :
    (zip_params args kwargs).length
      = Nat.min (groupLen args) (groupLen (kwargs.map (·.2))) := by
  simp [zip_params, List.length_zip, izipN_length]

/-! ## Lemmas about `safeSub` -/

theorem takeWhile_append_all {α : Type} {p : α → Bool} {a : List α} (b : List α)
    (h : ∀ x ∈ a, p x = true) :
    (a ++ b).takeWhile p = a ++ b.takeWhile p := by
  induction a with
  | nil => simp
  | cons y ys ih =>
    have hy := h y (List.mem_cons_self ..)
    simp [List.takeWhile_cons, hy, ih (fun x hx => h x (List.mem_cons_of_mem _ hx))]

theorem dropWhile_append_all {α : Type} {p : α → Bool} {a : List α} (b : List α)
    (h : ∀ x ∈ a, p x = true) :
    (a ++ b).dropWhile p = b.dropWhile p := by
  induction a with
  | nil => simp
  | cons y ys ih =>
    have hy := h y (List.mem_cons_self ..)
    simp [List.dropWhile_cons, hy, ih (fun x hx => h x (List.mem_cons_of_mem _ hx))]

theorem takeWhile_head_false {α : Type} {p : α → Bool} {R : List α}
    (hR : ∀ r rs, R = r :: rs → p r = false) : R.takeWhile p = [] := by
  cases R with
  | nil => rfl
  | cons r rs => simp [List.takeWhile_cons, hR r rs rfl]

theorem dropWhile_head_false {α : Type} {p : α → Bool} {R : List α}
    (hR : ∀ r rs, R = r :: rs → p r = false) : R.dropWhile p = R := by
  cases R with
  | nil => rfl
  | cons r rs => simp [List.dropWhile_cons, hR r rs rfl]

/-- Characters with no delimiter pass through `safeSubAux` unchanged,
each consuming one unit of fuel. -/
theorem safeSubAux_lit (m : List (Str × Str)) :
    ∀ (s R : Str) (fuel : Nat), (∀ x ∈ s, ¬(x = '$')) → (s ++ R).length ≤ fuel →
    safeSubAux m fuel (s ++ R) = s ++ safeSubAux m (fuel - s.length) R := by
  intro s
  induction s with
  | nil => intro R fuel _ _; simp
  | cons c s ih =>
    intro R fuel hs hlen
    cases fuel with
    | zero => simp at hlen
    | succ f =>
      have hc : ¬(c = '$') := hs c (List.mem_cons_self ..)
      have hlen' : (s ++ R).length ≤ f := by simp at hlen ⊢; omega
      simp only [List.cons_append, safeSubAux]
      rw [if_neg hc, ih R f (fun x hx => hs x (List.mem_cons_of_mem _ hx)) hlen']
      simp [Nat.succ_sub_succ]

/-- The escaped delimiter `$$` becomes a single `$`. -/
theorem safeSubAux_esc (m : List (Str × Str)) (f : Nat) (R : Str) :
    safeSubAux m (f + 1) ('$' :: '$' :: R) = '$' :: safeSubAux m f R := rfl

/-- A `$name` placeholder, when the following text cannot extend the
identifier: replaced when bound, left verbatim when not. -/
theorem safeSubAux_named (m : List (Str × Str)) (f : Nat) (c : Char) (cs R : Str)
    (hstart : isIdStart c = true) (hcont : ∀ x ∈ cs, isIdCont x = true)
    (hR : ∀ r rs, R = r :: rs → isIdCont r = false) :
    safeSubAux m (f + 1) ('$' :: c :: (cs ++ R))
      = (match lookupSub m (c :: cs) with
         | some v => v
         | none => '$' :: c :: cs) ++ safeSubAux m f R := by
  have hc1 : ¬(c = '$') := by intro h; subst h; exact absurd hstart (by decide)
  have hc2 : ¬(c = '{') := by intro h; subst h; exact absurd hstart (by decide)
  have htake : (cs ++ R).takeWhile isIdCont = cs := by
    rw [takeWhile_append_all R hcont, takeWhile_head_false hR, List.append_nil]
  have hdrop : (cs ++ R).dropWhile isIdCont = R := by
    rw [dropWhile_append_all R hcont, dropWhile_head_false hR]
  simp only [safeSubAux]
  rw [if_neg hc1, if_neg hc2, if_pos hstart, htake, hdrop]
  simp

/-- A `${name}` placeholder: replaced when bound, left verbatim when
not. -/
theorem safeSubAux_braced (m : List (Str × Str)) (f : Nat) (c : Char) (cs R : Str)
    (hstart : isIdStart c = true) (hcont : ∀ x ∈ cs, isIdCont x = true) :
    safeSubAux m (f + 1) ('$' :: '{' :: c :: (cs ++ ('}' :: R)))
      = (match lookupSub m (c :: cs) with
         | some v => v
         | none => '$' :: '{' :: (c :: cs ++ ['}'])) ++ safeSubAux m f R := by
  have hbrace : ∀ r rs, ('}' :: R) = r :: rs → isIdCont r = false := by
    intro r rs h
    cases h
    decide
  have htake : (cs ++ ('}' :: R)).takeWhile isIdCont = cs := by
    rw [takeWhile_append_all _ hcont, takeWhile_head_false hbrace, List.append_nil]
  have hdrop : (cs ++ ('}' :: R)).dropWhile isIdCont = '}' :: R := by
    rw [dropWhile_append_all _ hcont, dropWhile_head_false hbrace]
  simp only [safeSubAux]
  rw [if_pos hstart, hdrop, htake]
  simp

/-- `safeSubAux` on the serialization of a well-formed token list, with
any sufficient fuel, produces the rendering. -/
theorem safeSubAux_toks (m : List (Str × Str)) :
    ∀ (ts : List Tok) (fuel : Nat), wfToks ts = true → (serializeAll ts).length ≤ fuel →
    safeSubAux m fuel (serializeAll ts) = renderAll m ts := by
  intro ts
  induction ts with
  | nil =>
    intro fuel _ _
    cases fuel <;> rfl
  | cons t ts ih =>
    intro fuel hwf hlen
    cases t with
    | lit s =>
      have hser : serializeAll (Tok.lit s :: ts) = s ++ serializeAll ts := by
        simp [serializeAll, serializeTok]
      rw [hser] at hlen ⊢
      have hwf' : (s.all (fun c => !(c = '$')) && wfToks ts) = true := hwf
      have hns : ∀ x ∈ s, ¬(x = '$') := by
        intro x hx
        have := List.all_eq_true.mp (Bool.and_elim_left hwf') x hx
        simpa using this
      rw [safeSubAux_lit m s (serializeAll ts) fuel hns hlen]
      have : (serializeAll ts).length ≤ fuel - s.length := by
        rw [List.length_append] at hlen; omega
      rw [ih (fuel - s.length) (Bool.and_elim_right hwf') this]
      simp [renderAll, renderTok]
    | esc =>
      have hser : serializeAll (Tok.esc :: ts) = '$' :: '$' :: serializeAll ts := by
        simp [serializeAll, serializeTok]
      rw [hser] at hlen ⊢
      cases fuel with
      | zero => simp at hlen
      | succ f =>
        rw [safeSubAux_esc]
        have : (serializeAll ts).length ≤ f := by simp at hlen; omega
        rw [ih f hwf this]
        simp [renderAll, renderTok]
    | named k =>
      have hval : validId k = true := Bool.and_elim_left (Bool.and_elim_left hwf)
      have hhead : (match serializeAll ts with
          | [] => true
          | c :: _ => !isIdCont c) = true := Bool.and_elim_right (Bool.and_elim_left hwf)
      have hwf' : wfToks ts = true := Bool.and_elim_right hwf
      cases k with
      | nil => exact absurd hval (by decide)
      | cons c cs =>
        have hstart : isIdStart c = true := Bool.and_elim_left hval
        have hcont : ∀ x ∈ cs, isIdCont x = true :=
          fun x hx => List.all_eq_true.mp (Bool.and_elim_right hval) x hx
        have hR : ∀ r rs, serializeAll ts = r :: rs → isIdCont r = false := by
          intro r rs h
          rw [h] at hhead
          simpa using hhead
        have hser : serializeAll (Tok.named (c :: cs) :: ts)
            = '$' :: c :: (cs ++ serializeAll ts) := by
          simp [serializeAll, serializeTok]
        rw [hser] at hlen ⊢
        cases fuel with
        | zero => simp at hlen
        | succ f =>
          rw [safeSubAux_named m f c cs (serializeAll ts) hstart hcont hR]
          have : (serializeAll ts).length ≤ f := by simp at hlen; omega
          rw [ih f hwf' this]
          simp only [renderAll, List.map_cons, List.flatten_cons, renderTok]
    | braced k =>
      have hval : validId k = true := Bool.and_elim_left hwf
      have hwf' : wfToks ts = true := Bool.and_elim_right hwf
      cases k with
      | nil => exact absurd hval (by decide)
      | cons c cs =>
        have hstart : isIdStart c = true := Bool.and_elim_left hval
        have hcont : ∀ x ∈ cs, isIdCont x = true :=
          fun x hx => List.all_eq_true.mp (Bool.and_elim_right hval) x hx
        have hser : serializeAll (Tok.braced (c :: cs) :: ts)
            = '$' :: '{' :: c :: (cs ++ ('}' :: serializeAll ts)) := by
          simp [serializeAll, serializeTok]
        rw [hser] at hlen ⊢
        cases fuel with
        | zero => simp at hlen
        | succ f =>
          rw [safeSubAux_braced m f c cs (serializeAll ts) hstart hcont]
          have : (serializeAll ts).length ≤ f := by simp at hlen; omega
          rw [ih f hwf' this]
          simp only [renderAll, List.map_cons, List.flatten_cons, renderTok]

theorem safeSub_toks (m : List (Str × Str)) (ts : List Tok) (h : wfToks ts = true) :
    safeSub m (serializeAll ts) = renderAll m ts :=
  safeSubAux_toks m ts (serializeAll ts).length h (Nat.le_refl _)

/-! ## Claims about the docstring renderer -/

/-- C6: for any combination, substitution over the docstring with the
mapping built by `subDict` (`arg0`, `arg1`, ... bound to the positional
values by index, each keyword key bound to its value) replaces every
placeholder whose key is present in the mapping by its value, and leaves
every placeholder absent from the mapping verbatim, without error:
`safeSub` of any well-formed template text equals its placeholder-wise
rendering `renderAll`. -/
theorem docstring_safe_substitution (args : List Str) (kwargs : List (Str × Str))
    (ts : List Tok) (h : wfToks ts = true) :
    safeSub (subDict args kwargs) (serializeAll ts) = renderAll (subDict args kwargs) ts :=
  safeSub_toks (subDict args kwargs) ts h

/-- C6, witness: the template `Doc $col $miss` with `col` bound to `a`
and `miss` unbound. -/
theorem docstring_safe_substitution_witness :
    safeSub (subDict [] exKwargs) (serializeAll exToks)
      = renderAll (subDict [] exKwargs) exToks :=
  docstring_safe_substitution [] exKwargs exToks (by decide)

/-- C7, counterexample: a suite whose only marked template has no
docstring.  Expansion does not succeed with an empty docstring: it fails,
because `string.Template(None).safe_substitute(...)` raises `TypeError`
(`Template` stores the `None` and `pattern.sub` rejects it). -/
theorem missing_docstring_fails :
    spawn exSuiteNoDoc = Except.error SpawnErr.docTypeError := rfl

/-- C7, amended: when the template method has no docstring, docstring
rendering raises an error (a `TypeError` in the Python code) instead of
yielding an empty or absent docstring, so expansion of any suite in which
such a template generates at least one case fails. -/
theorem renderDoc_none_errors (m : List (Str × Str)) :
    renderDoc none m = Except.error SpawnErr.docTypeError := rfl

/-! ## Lemmas about the keyword ordering -/

theorem lexLe_refl (s : Str) : lexLe s s = true := by
  induction s with
  | nil => rfl
  | cons a s ih => simp [lexLe, ih]

theorem lexLe_total (s t : Str) : lexLe s t = true ∨ lexLe t s = true := by
  induction s generalizing t with
  | nil => exact Or.inl rfl
  | cons a s ih =>
    cases t with
    | nil => exact Or.inr rfl
    | cons b t =>
      rcases lt_trichotomy a b with h | h | h
      · exact Or.inl (by simp [lexLe, h])
      · subst h
        rcases ih t with h' | h'
        · exact Or.inl (by simp [lexLe, h'])
        · exact Or.inr (by simp [lexLe, h'])
      · exact Or.inr (by simp [lexLe, h])

theorem lexLe_antisymm {s t : Str} (h1 : lexLe s t = true) (h2 : lexLe t s = true) :
    s = t := by
  induction s generalizing t with
  | nil =>
    cases t with
    | nil => rfl
    | cons b t => exact absurd h2 (by simp [lexLe])
  | cons a s ih =>
    cases t with
    | nil => exact absurd h1 (by simp [lexLe])
    | cons b t =>
      by_cases hab : a < b
      · have hba : ¬(b < a) := lt_asymm hab
        have hne : ¬(b = a) := fun h => (by simp [h] at hab : ¬(a < a)) (h ▸ hab)
        simp [lexLe, hba, hne] at h2
      · by_cases heq : a = b
        · subst heq
          simp only [lexLe, if_neg (lt_irrefl a), if_pos rfl] at h1 h2
          rw [ih h1 h2]
        · simp [lexLe, hab, heq] at h1

theorem lexLe_trans {s t u : Str} (h1 : lexLe s t = true) (h2 : lexLe t u = true) :
    lexLe s u = true := by
  induction s generalizing t u with
  | nil => rfl
  | cons a s ih =>
    cases t with
    | nil => exact absurd h1 (by simp [lexLe])
    | cons b t =>
      cases u with
      | nil => exact absurd h2 (by simp [lexLe])
      | cons c u =>
        by_cases hab : a < b
        · by_cases hbc : b < c
          · simp [lexLe, lt_trans hab hbc]
          · by_cases hbc' : b = c
            · subst hbc'; simp [lexLe, hab]
            · simp [lexLe, hbc, hbc'] at h2
        · by_cases hab' : a = b
          · subst hab'
            simp only [lexLe, if_neg (lt_irrefl a), if_pos rfl] at h1
            by_cases hbc : a < c
            · simp [lexLe, hbc]
            · by_cases hbc' : a = c
              · subst hbc'
                simp only [lexLe, if_neg (lt_irrefl a), if_pos rfl] at h2 ⊢
                exact ih h1 h2
              · simp [lexLe, hbc, hbc'] at h2
          · simp [lexLe, hab, hab'] at h1

instance : IsTotal (Str × Str) pairLe :=
  ⟨by
    intro p q
    unfold pairLe
    by_cases h : p.1 = q.1
    · rw [if_pos h, if_pos h.symm]
      exact lexLe_total p.2 q.2
    · rw [if_neg h, if_neg (fun hh => h hh.symm)]
      exact lexLe_total p.1 q.1⟩

instance : IsTrans (Str × Str) pairLe :=
  ⟨by
    intro p q r h1 h2
    unfold pairLe at h1 h2 ⊢
    by_cases hpq : p.1 = q.1
    · rw [if_pos hpq] at h1
      by_cases hqr : q.1 = r.1
      · rw [if_pos hqr] at h2
        rw [if_pos (hpq.trans hqr)]
        exact lexLe_trans h1 h2
      · rw [if_neg hqr] at h2
        rw [if_neg (fun h => hqr (hpq ▸ h)), hpq]
        exact h2
    · rw [if_neg hpq] at h1
      by_cases hqr : q.1 = r.1
      · rw [if_neg (fun h => hpq (hqr ▸ h)), ← hqr]
        exact h1
      · rw [if_neg hqr] at h2
        have hpr : ¬(p.1 = r.1) := by
          intro h
          exact hpq (lexLe_antisymm h1 (h ▸ h2))
        rw [if_neg hpr]
        exact lexLe_trans h1 h2⟩

instance : IsAntisymm (Str × Str) pairLe :=
  ⟨by
    intro p q h1 h2
    unfold pairLe at h1 h2
    by_cases h : p.1 = q.1
    · rw [if_pos h] at h1
      rw [if_pos h.symm] at h2
      exact Prod.ext h (lexLe_antisymm h1 h2)
    · rw [if_neg h] at h1
      rw [if_neg (fun hh => h hh.symm)] at h2
      exact absurd (lexLe_antisymm h1 h2) h⟩

/-! ## Claim C8 -/

/-- C8: case names are independent of the declaration order of the named
slots — `buildName` sorts the keyword items by key before rendering them,
so any two keyword dictionaries holding the same items yield the same
name. -/
theorem name_order_independent (name : Str) (args : List Str)
    (kw1 kw2 : List (Str × Str)) (h : List.Perm kw1 kw2) :
    buildName name args kw1 = buildName name args kw2 := by
  have hsort : sortPairs kw1 = sortPairs kw2 := by
    apply List.eq_of_perm_of_sorted
      (((List.perm_insertionSort pairLe kw1).trans h).trans
        (List.perm_insertionSort pairLe kw2).symm)
      (List.sorted_insertionSort pairLe kw1)
      (List.sorted_insertionSort pairLe kw2)
  have hnil : (kw1 ≠ []) ↔ (kw2 ≠ []) := by
    constructor
    · intro h1 h2
      exact h1 (h2 ▸ h).eq_nil
    · intro h2 h1
      exact h2 (h1 ▸ h.symm).eq_nil
  unfold buildName
  have e1 : (if args ≠ [] ∨ kw1 ≠ [] then (['_'] : Str) else [])
      = (if args ≠ [] ∨ kw2 ≠ [] then ['_'] else []) :=
    if_congr (or_congr Iff.rfl hnil) rfl rfl
  have e2 : (if args ≠ [] ∧ kw1 ≠ [] then (['_'] : Str) else [])
      = (if args ≠ [] ∧ kw2 ≠ [] then ['_'] else []) :=
    if_congr (and_congr Iff.rfl hnil) rfl rfl
  rw [e1, e2, hsort]

/-- C8, witness: the same two keyword items declared in the two possible
orders. -/
theorem name_order_independent_witness :
    buildName ['t'] [] [(['b'], ['2']), (['a'], ['1'])]
      = buildName ['t'] [] [(['a'], ['1']), (['b'], ['2'])] :=
  name_order_independent ['t'] [] _ _ (List.Perm.swap ..)

/-! ## Lemmas about the uniqueness loop -/

theorem findSuffix_all_taken (used : List Str) (cand : Str) :
    ∀ (fuel i : Nat), (∀ d, d < fuel → suffixName cand (i + d) ∈ used) →
    findSuffix used cand i fuel = Except.error SpawnErr.nameExhausted := by
  intro fuel
  induction fuel with
  | zero => intro i _; rfl
  | succ f ih =>
    intro i h
    have h0 : suffixName cand i ∈ used := by
      have := h 0 (Nat.succ_pos f)
      simpa using this
    show (if suffixName cand i ∈ used then findSuffix used cand (i + 1) f
          else Except.ok (suffixName cand i)) = _
    rw [if_pos h0]
    apply ih
    intro d hd
    have := h (d + 1) (by omega)
    rw [show i + (d + 1) = (i + 1) + d by omega] at this
    exact this

theorem findSuffix_first_free (used : List Str) (cand : Str) :
    ∀ (fuel i j : Nat), j < fuel → ¬(suffixName cand (i + j) ∈ used) →
    (∀ d, d < j → suffixName cand (i + d) ∈ used) →
    findSuffix used cand i fuel = Except.ok (suffixName cand (i + j)) := by
  intro fuel
  induction fuel with
  | zero => intro i j hj _ _; omega
  | succ f ih =>
    intro i j hj hfree htaken
    cases j with
    | zero =>
      have : ¬(suffixName cand i ∈ used) := by simpa using hfree
      show (if suffixName cand i ∈ used then findSuffix used cand (i + 1) f
            else Except.ok (suffixName cand i)) = _
      rw [if_neg this]
      simp
    | succ j' =>
      have h0 : suffixName cand i ∈ used := by
        have := htaken 0 (Nat.succ_pos j')
        simpa using this
      show (if suffixName cand i ∈ used then findSuffix used cand (i + 1) f
            else Except.ok (suffixName cand i)) = _
      rw [if_pos h0]
      have hrec := ih (i + 1) j' (by omega)
        (by rw [show (i + 1) + j' = i + (j' + 1) by omega]; exact hfree)
        (fun d hd => by
          rw [show (i + 1) + d = i + (d + 1) by omega]
          exact htaken (d + 1) (by omega))
      rw [hrec, show (i + 1) + j' = i + (j' + 1) by omega]

/-! ## Claim C4 -/

/-- C4: when the candidate name already exists in the attribute table,
suffixes `_0`, `_1`, ... are tried in order and the first free one is
taken; when the candidate and all 1023 suffixed names (1024 names in
all) are taken, the fatal error (the `RuntimeError` reporting 1024
similarly named methods) is raised, which aborts construction of the
entire suite. -/
theorem name_collision_suffixes (used : List Str) (cand : Str) (h : cand ∈ used) :
    ((∀ i, i < 1023 → suffixName cand i ∈ used) →
      resolveName used cand = Except.error SpawnErr.nameExhausted)
    ∧ (∀ j, j < 1023 → ¬(suffixName cand j ∈ used) →
        (∀ i, i < j → suffixName cand i ∈ used) →
        resolveName used cand = Except.ok (suffixName cand j)) := by
  constructor
  · intro hall
    unfold resolveName
    rw [if_pos h]
    exact findSuffix_all_taken used cand 1023 0 (fun d hd => by simpa using hall d hd)
  · intro j hj hfree htaken
    unfold resolveName
    rw [if_pos h]
    have := findSuffix_first_free used cand 1023 0 j hj (by simpa using hfree)
      (fun d hd => by simpa using htaken d hd)
    simpa using this

/-- C4, witness: the spec scenario — a second case whose candidate
`test_x_1` is already taken resolves to `test_x_1_0`. -/
theorem name_collision_suffixes_witness :
    resolveName [['t', 'e', 's', 't', '_', 'x', '_', '1']] ['t', 'e', 's', 't', '_', 'x', '_', '1']
      = Except.ok (suffixName ['t', 'e', 's', 't', '_', 'x', '_', '1'] 0) :=
  (name_collision_suffixes _ _ (by decide)).2 0 (by decide) (by decide)
    (fun i hi => absurd hi (by omega))

/-! ## Lemmas about the attribute table -/

theorem eraseKey_sublist (k : Str) : ∀ (l : Suite), (eraseKey k l).Sublist l := by
  intro l
  induction l with
  | nil => simp [eraseKey]
  | cons p l ih =>
    cases p with
    | mk k' e =>
      show (if k' = k then l else (k', e) :: eraseKey k l).Sublist ((k', e) :: l)
      by_cases h : k' = k
      · rw [if_pos h]
        exact List.sublist_cons_self ..
      · rw [if_neg h]
        exact ih.cons₂ _

theorem eraseKey_length (k : Str) : ∀ {l : Suite}, k ∈ keysOf l →
    l.length = (eraseKey k l).length + 1 := by
  intro l
  induction l with
  | nil => intro h; cases h
  | cons p l ih =>
    intro h
    cases p with
    | mk k' e =>
      show _ = (if k' = k then l else (k', e) :: eraseKey k l).length + 1
      by_cases hk : k' = k
      · rw [if_pos hk]
        simp
      · rw [if_neg hk]
        have hmem : k ∈ keysOf l := by
          rcases List.mem_cons.mp h with h' | h'
          · exact absurd h'.symm hk
          · exact h'
        simp [List.length_cons, ih hmem]

theorem mem_eraseKey_of_ne {k : Str} {p : Str × Entry} : ∀ {l : Suite}, p ∈ l → ¬(p.1 = k) →
    p ∈ eraseKey k l := by
  intro l
  induction l with
  | nil => intro h _; cases h
  | cons q l ih =>
    intro hp hne
    cases q with
    | mk k' e =>
      show p ∈ (if k' = k then l else (k', e) :: eraseKey k l)
      rcases List.mem_cons.mp hp with h1 | h1
      · subst h1
        rw [if_neg hne]
        exact List.mem_cons_self ..
      · by_cases hk : k' = k
        · rw [if_pos hk]
          exact h1
        · rw [if_neg hk]
          exact List.mem_cons_of_mem _ (ih h1 hne)

theorem key_unique : ∀ {l : Suite}, (keysOf l).Nodup → ∀ {k : Str} {a b : Entry},
    (k, a) ∈ l → (k, b) ∈ l → a = b := by
  intro l
  induction l with
  | nil => intro _ k a b h; cases h
  | cons p l ih =>
    intro hnd k a b ha hb
    cases p with
    | mk k' e =>
      have hnd' : ¬(k' ∈ keysOf l) ∧ (keysOf l).Nodup := by
        rw [show keysOf ((k', e) :: l) = k' :: keysOf l from rfl, List.nodup_cons] at hnd
        exact hnd
      rcases List.mem_cons.mp ha with h1 | h1 <;> rcases List.mem_cons.mp hb with h2 | h2
      · injection h1 with hk1 he1
        injection h2 with hk2 he2
        rw [he1, he2]
      · injection h1 with hk1 he1
        exact absurd (by rw [← hk1]; exact List.mem_map_of_mem (·.1) h2) hnd'.1
      · injection h2 with hk2 he2
        exact absurd (by rw [← hk2]; exact List.mem_map_of_mem (·.1) h1) hnd'.1
      · exact ih hnd'.2 h1 h2

/-! ## Character-level facts about generated names -/

theorem digitChar_isDigit {n : Nat} (h : n < 10) : (Nat.digitChar n).isDigit = true := by
  interval_cases n <;> decide

theorem natStrAux_digits : ∀ (fuel n : Nat) (acc : Str), (∀ c ∈ acc, c.isDigit = true) →
    ∀ c ∈ natStrAux fuel n acc, c.isDigit = true := by
  intro fuel
  induction fuel with
  | zero => intro n acc hacc; exact hacc
  | succ f ih =>
    intro n acc hacc c hc
    by_cases h : n < 10
    · rw [show natStrAux (f + 1) n acc
          = if n < 10 then Nat.digitChar n :: acc
            else natStrAux f (n / 10) (Nat.digitChar (n % 10) :: acc) from rfl,
        if_pos h] at hc
      rcases List.mem_cons.mp hc with h1 | h1
      · subst h1
        exact digitChar_isDigit h
      · exact hacc c h1
    · rw [show natStrAux (f + 1) n acc
          = if n < 10 then Nat.digitChar n :: acc
            else natStrAux f (n / 10) (Nat.digitChar (n % 10) :: acc) from rfl,
        if_neg h] at hc
      refine ih (n / 10) _ ?_ c hc
      intro c' hc'
      rcases List.mem_cons.mp hc' with h1 | h1
      · subst h1
        exact digitChar_isDigit (Nat.mod_lt n (by omega))
      · exact hacc c' h1

theorem natStr_digits (n : Nat) : ∀ c ∈ natStr n, c.isDigit = true :=
  natStrAux_digits (n + 1) n [] (fun c hc => absurd hc (List.not_mem_nil c))

theorem digit_cont {c : Char} (h : c.isDigit = true) : isIdCont c = true := by
  simp [isIdCont, h]

theorem alnum_cont {c : Char} (h : c.isAlphanum = true) : isIdCont c = true := by
  have h' : c.isAlpha = true ∨ c.isDigit = true := by
    unfold Char.isAlphanum at h
    simpa using h
  rcases h' with h' | h'
  · simp [isIdCont, isIdStart, h']
  · simp [isIdCont, h']

theorem AS_WORD_chars {x : Char} {w : Str} (h : AS_WORD x = some w) :
    ∀ c ∈ w, isIdCont c = true := by
  intro c hc
  unfold AS_WORD at h
  cases hf : AS_WORD_TABLE.find? (fun p => p.1 == x) with
  | none => rw [hf] at h; cases h
  | some q =>
    rw [hf] at h
    have hw : q.2 = w := by
      injection h
    have hq : q ∈ AS_WORD_TABLE := List.mem_of_find?_eq_some hf
    subst hw
    exact (by decide : ∀ p ∈ AS_WORD_TABLE, ∀ c ∈ p.2, isIdCont c = true) q hq c hc

theorem pystr_chars (s : Str) : ∀ c ∈ pystr s, isIdCont c = true := by
  intro c hc
  unfold pystr at hc
  rcases List.mem_flatMap.mp hc with ⟨x, _, hcx⟩
  by_cases h : x.isAlphanum = true
  · rw [if_pos h] at hcx
    have : c = x := List.mem_singleton.mp hcx
    subst this
    exact alnum_cont h
  · rw [if_neg h] at hcx
    cases hw : AS_WORD x with
    | none =>
      rw [hw] at hcx
      simp only [Option.getD] at hcx
      have : c = '_' := List.mem_singleton.mp hcx
      subst this
      decide
    | some w =>
      rw [hw] at hcx
      simp only [Option.getD] at hcx
      exact AS_WORD_chars hw c hcx

theorem joinU_cont : ∀ (xs : List Str), (∀ s ∈ xs, ∀ c ∈ s, isIdCont c = true) →
    ∀ c ∈ joinU xs, isIdCont c = true := by
  intro xs
  induction xs with
  | nil => intro _ c hc; cases hc
  | cons s xs ih =>
    intro h c hc
    cases xs with
    | nil => exact h s (List.mem_cons_self ..) c hc
    | cons s' xs' =>
      rw [show joinU (s :: s' :: xs') = s ++ '_' :: joinU (s' :: xs') from rfl] at hc
      rcases List.mem_append.mp hc with h1 | h1
      · exact h s (List.mem_cons_self ..) c h1
      · rcases List.mem_cons.mp h1 with h2 | h2
        · subst h2
          decide
        · exact ih (fun t ht => h t (List.mem_cons_of_mem _ ht)) c h2

theorem cont_chars_append {t u : Str} (ht : ∀ c ∈ t, isIdCont c = true)
    (hu : ∀ c ∈ u, isIdCont c = true) : ∀ c ∈ t ++ u, isIdCont c = true := by
  intro c hc
  rcases List.mem_append.mp hc with h | h
  · exact ht c h
  · exact hu c h

theorem ite_underscore_cont (P : Prop) [Decidable P] :
    ∀ c ∈ (if P then (['_'] : Str) else []), isIdCont c = true := by
  intro c hc
  split at hc
  · have : c = '_' := List.mem_singleton.mp hc
    subst this
    decide
  · cases hc

theorem validId_append {s t : Str} (hs : validId s = true)
    (ht : ∀ c ∈ t, isIdCont c = true) : validId (s ++ t) = true := by
  cases s with
  | nil => exact absurd hs (by decide)
  | cons c cs =>
    have h1 : isIdStart c = true := Bool.and_elim_left hs
    have h2 : ∀ x ∈ cs, isIdCont x = true :=
      fun x hx => List.all_eq_true.mp (Bool.and_elim_right hs) x hx
    show (isIdStart c && (cs ++ t).all isIdCont) = true
    rw [h1, Bool.true_and, List.all_eq_true]
    intro x hx
    rcases List.mem_append.mp hx with h | h
    · exact h2 x h
    · exact ht x h

theorem suffixName_starts (cand : Str) (i : Nat) : cand <+: suffixName cand i := ⟨_, rfl⟩

theorem suffixName_valid {cand : Str} (h : validId cand = true) (i : Nat) :
    validId (suffixName cand i) = true := by
  apply validId_append h
  intro c hc
  rcases List.mem_cons.mp hc with h1 | h1
  · subst h1
    decide
  · exact digit_cont (natStr_digits i c h1)

theorem buildName_starts (name : Str) (args : List Str) (kwargs : List (Str × Str)) :
    name <+: buildName name args kwargs := by
  unfold buildName
  refine ⟨(if args ≠ [] ∨ kwargs ≠ [] then (['_'] : Str) else []) ++
    (joinU (args.map pystr) ++
      ((if args ≠ [] ∧ kwargs ≠ [] then (['_'] : Str) else []) ++
        joinU ((sortPairs kwargs).map (fun kv => pystr kv.1 ++ '_' :: pystr kv.2)))), ?_⟩
  simp only [List.append_assoc]

theorem buildName_valid {name : Str} (hv : validId name = true)
    (args : List Str) (kwargs : List (Str × Str)) :
    validId (buildName name args kwargs) = true := by
  unfold buildName
  rw [List.append_assoc, List.append_assoc, List.append_assoc]
  apply validId_append hv
  apply cont_chars_append (ite_underscore_cont _)
  apply cont_chars_append
  · apply joinU_cont
    intro s hs
    rcases List.mem_map.mp hs with ⟨a, _, rfl⟩
    exact pystr_chars a
  apply cont_chars_append (ite_underscore_cont _)
  apply joinU_cont
  intro s hs
  rcases List.mem_map.mp hs with ⟨kv, _, rfl⟩
  apply cont_chars_append (pystr_chars kv.1)
  intro c hc
  rcases List.mem_cons.mp hc with h1 | h1
  · subst h1
    decide
  · exact pystr_chars kv.2 c h1

/-! ## Shape of successful name resolution and case insertion -/

theorem findSuffix_ok_result {used : List Str} {cand r : Str} :
    ∀ {fuel i : Nat}, findSuffix used cand i fuel = Except.ok r →
    ¬(r ∈ used) ∧ ∃ j, r = suffixName cand j := by
  intro fuel
  induction fuel with
  | zero => intro i h; cases h
  | succ f ih =>
    intro i h
    rw [show findSuffix used cand i (f + 1)
        = if suffixName cand i ∈ used then findSuffix used cand (i + 1) f
          else Except.ok (suffixName cand i) from rfl] at h
    by_cases hm : suffixName cand i ∈ used
    · rw [if_pos hm] at h
      exact ih h
    · rw [if_neg hm] at h
      injection h with h
      subst h
      exact ⟨hm, i, rfl⟩

theorem resolveName_ok_props {used : List Str} {cand r : Str}
    (h : resolveName used cand = Except.ok r) :
    ¬(r ∈ used) ∧ (cand <+: r) ∧ (validId cand = true → validId r = true) := by
  unfold resolveName at h
  by_cases hm : cand ∈ used
  · rw [if_pos hm] at h
    obtain ⟨hnot, j, rfl⟩ := findSuffix_ok_result h
    exact ⟨hnot, suffixName_starts cand j, fun hv => suffixName_valid hv j⟩
  · rw [if_neg hm] at h
    injection h with h
    subst h
    exact ⟨hm, ⟨[], List.append_nil _⟩, fun hv => hv⟩

theorem spawnCase_ok_shape {name : Str} {m : Method} {attrs : Suite}
    {combo : List Str × List (Str × Str)} {s' : Suite}
    (h : spawnCase name m attrs combo = Except.ok s') :
    ∃ key doc, s' = attrs ++ [(key, Entry.func (some name) ⟨some doc, [], m.dict⟩)]
      ∧ ¬(key ∈ keysOf attrs) ∧ (name <+: key)
      ∧ (validId name = true → validId key = true) := by
  unfold spawnCase at h
  cases hd : renderDoc m.doc (subDict combo.1 combo.2) with
  | error e => rw [hd] at h; cases h
  | ok doc =>
    rw [hd] at h
    cases hr : resolveName (keysOf attrs) (buildName name combo.1 combo.2) with
    | error e => rw [hr] at h; cases h
    | ok actual =>
      rw [hr] at h
      obtain ⟨hnot, hpre, hval⟩ := resolveName_ok_props hr
      injection h with h
      exact ⟨actual, doc, h.symm, hnot, (buildName_starts ..).trans hpre,
        fun hv => hval (buildName_valid hv ..)⟩

/-! ## Invariants of the expansion loops -/

theorem spawnCombos_ok {name : Str} {m : Method} :
    ∀ (cs : List (List Str × List (Str × Str))) (attrs s' : Suite),
    spawnCombos name m attrs cs = Except.ok s' →
    attrs.Sublist s'
    ∧ s'.length = attrs.length + cs.length
    ∧ ((keysOf attrs).Nodup → (keysOf s').Nodup)
    ∧ (∀ q ∈ s', ¬(q ∈ attrs) →
        ∃ key doc, q = (key, Entry.func (some name) ⟨some doc, [], m.dict⟩)
          ∧ (name <+: key) ∧ (validId name = true → validId key = true)) := by
  intro cs
  induction cs with
  | nil =>
    intro attrs s' h
    injection h with h
    subst h
    exact ⟨List.Sublist.refl _, by simp, fun h => h, fun q hq hnq => absurd hq hnq⟩
  | cons c cs ih =>
    intro attrs s' h
    rw [show spawnCombos name m attrs (c :: cs)
        = (match spawnCase name m attrs c with
           | Except.error e => Except.error e
           | Except.ok attrs' => spawnCombos name m attrs' cs) from rfl] at h
    cases hc : spawnCase name m attrs c with
    | error e => rw [hc] at h; cases h
    | ok A1 =>
      rw [hc] at h
      obtain ⟨key, doc, hA1, hkey, hpre, hval⟩ := spawnCase_ok_shape hc
      obtain ⟨hsub, hlen, hnd, hnew⟩ := ih A1 s' h
      have hsubA : attrs.Sublist A1 := by
        rw [hA1]
        exact List.sublist_append_left ..
      refine ⟨hsubA.trans hsub, ?_, ?_, ?_⟩
      · rw [hlen, hA1]
        simp
        omega
      · intro hka
        apply hnd
        rw [hA1, show keysOf (attrs ++ [(key, Entry.func (some name) ⟨some doc, [], m.dict⟩)])
            = keysOf attrs ++ [key] by simp [keysOf]]
        rw [List.nodup_append]
        refine ⟨hka, List.nodup_singleton key, ?_⟩
        intro a ha hak
        have : a = key := by simpa using hak
        exact hkey (this ▸ ha)
      · intro q hq hnq
        by_cases hqa : q ∈ A1
        · rw [hA1] at hqa
          rcases List.mem_append.mp hqa with h1 | h1
          · exact absurd h1 hnq
          · have : q = (key, Entry.func (some name) ⟨some doc, [], m.dict⟩) :=
              List.mem_singleton.mp h1
            exact ⟨key, doc, this, hpre, hval⟩
        · exact hnew q hq hqa

theorem spawnTemplates_ok :
    ∀ (ms : List (Str × Method)) (attrs s' : Suite),
    (keysOf attrs).Nodup →
    ((ms.map (·.1)).Nodup) →
    (∀ p ∈ ms, ∃ e, (p.1, e) ∈ attrs ∧ flagged e = true) →
    spawnTemplates attrs ms = Except.ok s' →
    (keysOf s').Nodup
    ∧ s'.length + ms.length = attrs.length + (ms.map (fun p => p.2.combos.length)).sum
    ∧ (∀ q ∈ attrs, flagged q.2 = false → q ∈ s')
    ∧ (∀ q ∈ s', ¬(q ∈ attrs) →
        ∃ nm mm key doc, (nm, mm) ∈ ms
          ∧ q = (key, Entry.func (some nm) ⟨some doc, [], mm.dict⟩)
          ∧ (nm <+: key) ∧ (validId nm = true → validId key = true)) := by
  intro ms
  induction ms with
  | nil =>
    intro attrs s' hnd _ _ h
    injection h with h
    subst h
    exact ⟨hnd, by simp, fun q hq _ => hq, fun q hq hnq => absurd hq hnq⟩
  | cons p ms ih =>
    intro attrs s' hnd hmnd hmem h
    cases p with
    | mk n mm =>
      rw [show spawnTemplates attrs ((n, mm) :: ms)
          = (match spawnCombos n mm (eraseKey n attrs) mm.combos with
             | Except.error e => Except.error e
             | Except.ok attrs' => spawnTemplates attrs' ms) from rfl] at h
      cases hc : spawnCombos n mm (eraseKey n attrs) mm.combos with
      | error e => rw [hc] at h; cases h
      | ok A2 =>
        rw [hc] at h
        obtain ⟨en, hen, hfen⟩ := hmem (n, mm) (List.mem_cons_self ..)
        have hnk : n ∈ keysOf attrs := List.mem_map_of_mem (·.1) hen
        have hndA1 : (keysOf (eraseKey n attrs)).Nodup := by
          have h1 : (List.map (fun p : Str × Entry => p.1) (eraseKey n attrs)).Sublist
              (List.map (fun p : Str × Entry => p.1) attrs) :=
            List.Sublist.map _ (eraseKey_sublist n attrs)
          exact List.Nodup.sublist h1 hnd
        obtain ⟨hsubA2, hlenA2, hndA2, hnewA2⟩ := spawnCombos_ok mm.combos (eraseKey n attrs) A2 hc
        have hmnd' : ((ms.map (·.1)).Nodup) := (List.nodup_cons.mp hmnd).2
        have hnotin : ¬(n ∈ ms.map (·.1)) := (List.nodup_cons.mp hmnd).1
        have hmem' : ∀ p ∈ ms, ∃ e, (p.1, e) ∈ A2 ∧ flagged e = true := by
          intro p hp
          obtain ⟨e, he, hfe⟩ := hmem p (List.mem_cons_of_mem _ hp)
          have hpn : ¬(p.1 = n) := by
            intro hq
            exact hnotin (hq ▸ List.mem_map_of_mem (·.1) hp)
          exact ⟨e, hsubA2.subset (mem_eraseKey_of_ne he hpn), hfe⟩
        obtain ⟨hnds', hlens', hpres', hnews'⟩ := ih A2 s' (hndA2 hndA1) hmnd' hmem' h
        refine ⟨hnds', ?_, ?_, ?_⟩
        · have hE : attrs.length = (eraseKey n attrs).length + 1 := eraseKey_length n hnk
          simp only [List.map_cons, List.sum_cons, List.length_cons]
          omega
        · intro q hq hfq
          have hqn : ¬(q.1 = n) := by
            intro hqe
            have : q.2 = en := by
              apply key_unique hnd _ hen
              rw [← hqe]
              exact hq
            rw [this] at hfq
            rw [hfq] at hfen
            cases hfen
          exact hpres' q (hsubA2.subset (mem_eraseKey_of_ne hq hqn)) hfq
        · intro q hq hnq
          by_cases hqa : q ∈ A2
          · have hqe : ¬(q ∈ eraseKey n attrs) :=
              fun hc' => hnq ((eraseKey_sublist n attrs).subset hc')
            obtain ⟨key, doc, hqeq, hpre, hval⟩ := hnewA2 q hqa hqe
            exact ⟨n, mm, key, doc, List.mem_cons_self .., hqeq, hpre, hval⟩
          · obtain ⟨nm, mm', key, doc, hms, hqeq, hpre, hval⟩ := hnews' q hq hqa
            exact ⟨nm, mm', key, doc, List.mem_cons_of_mem _ hms, hqeq, hpre, hval⟩

/-! ## Facts about `markedTests` and `generatedPairs` -/

theorem markedTests_cons_plain (k : Str) (s : Suite) :
    markedTests ((k, Entry.plain) :: s) = markedTests s := rfl

theorem markedTests_cons_func {m : Method} (k : Str) (b : Option Str) (s : Suite) :
    markedTests ((k, Entry.func b m) :: s)
      = if markerName ∈ m.dict then (k, m) :: markedTests s else markedTests s := by
  unfold markedTests
  rw [List.filterMap_cons]
  by_cases hm : markerName ∈ m.dict
  · simp [hm]
  · simp [hm]

theorem markedTests_keys_sublist (s : Suite) :
    ((markedTests s).map (·.1)).Sublist (keysOf s) := by
  induction s with
  | nil => simp [markedTests, keysOf]
  | cons p s ih =>
    cases p with
    | mk k e =>
      cases e with
      | plain =>
        rw [markedTests_cons_plain]
        exact ih.cons _
      | func b m =>
        rw [markedTests_cons_func]
        by_cases hm : markerName ∈ m.dict
        · rw [if_pos hm]
          show (k :: (markedTests s).map (·.1)).Sublist (k :: keysOf s)
          exact ih.cons₂ _
        · rw [if_neg hm]
          exact ih.cons _

theorem markedTests_mem {s : Suite} {p : Str × Method} (hp : p ∈ markedTests s) :
    ∃ b, (p.1, Entry.func b p.2) ∈ s ∧ flagged (Entry.func b p.2) = true := by
  unfold markedTests at hp
  rcases List.mem_filterMap.mp hp with ⟨q, hq, hmatch⟩
  cases q with
  | mk k e =>
    cases e with
    | plain => cases hmatch
    | func b m =>
      have hmatch' : (if markerName ∈ m.dict then some (k, m) else none) = some p := hmatch
      by_cases hm : markerName ∈ m.dict
      · rw [if_pos hm] at hmatch'
        injection hmatch' with hmatch'
        subst hmatch'
        exact ⟨b, hq, by simp [flagged, hm]⟩
      · rw [if_neg hm] at hmatch'
        cases hmatch'

theorem generatedPairs_keys_sublist (s : Suite) :
    ((generatedPairs s).map (·.1)).Sublist (keysOf s) := by
  induction s with
  | nil => simp [generatedPairs, keysOf]
  | cons p s ih =>
    cases p with
    | mk k e =>
      cases e with
      | plain =>
        rw [show generatedPairs ((k, Entry.plain) :: s) = generatedPairs s from rfl]
        exact ih.cons _
      | func b m =>
        cases b with
        | none =>
          rw [show generatedPairs ((k, Entry.func none m) :: s) = generatedPairs s from rfl]
          exact ih.cons _
        | some nm =>
          rw [show generatedPairs ((k, Entry.func (some nm) m) :: s)
              = (k, nm) :: generatedPairs s from rfl]
          show (k :: (generatedPairs s).map (·.1)).Sublist (k :: keysOf s)
          exact ih.cons₂ _

theorem generatedPairs_mem {s : Suite} {q : Str × Str} (hq : q ∈ generatedPairs s) :
    ∃ mm, (q.1, Entry.func (some q.2) mm) ∈ s := by
  unfold generatedPairs at hq
  rcases List.mem_filterMap.mp hq with ⟨p, hp, hmatch⟩
  cases p with
  | mk k e =>
    cases e with
    | plain => cases hmatch
    | func b m =>
      cases b with
      | none => cases hmatch
      | some nm =>
        injection hmatch with hmatch
        subst hmatch
        exact ⟨m, hp⟩

/-! ## Claims about the spawner -/

/-- C3: on a suite whose declared attribute names are distinct, whose
marked template names are valid identifiers, and whose declared entries
are not themselves generated wrappers, every successful expansion yields
generated case names that begin with their own template's name, are valid
bare identifiers (built from the sanitizer's character set), and are
pairwise distinct within the suite. -/
theorem generated_names_wellformed (suite s' : Suite)
    (hnd : (keysOf suite).Nodup)
    (hvalid : ∀ p ∈ markedTests suite, validId p.1 = true)
    (hnogen : ∀ q ∈ suite, isSpawned q.2 = false)
    (hok : spawn suite = Except.ok s') :
    ((generatedPairs s').map (·.1)).Nodup
    ∧ ∀ q ∈ generatedPairs s', (q.2 <+: q.1) ∧ validId q.1 = true := by
  have hmnd : ((markedTests suite).map (·.1)).Nodup :=
    List.Nodup.sublist (markedTests_keys_sublist suite) hnd
  have hmem : ∀ p ∈ markedTests suite, ∃ e, (p.1, e) ∈ suite ∧ flagged e = true := by
    intro p hp
    obtain ⟨b, hb, hf⟩ := markedTests_mem hp
    exact ⟨Entry.func b p.2, hb, hf⟩
  obtain ⟨hnds', _, _, hnew⟩ :=
    spawnTemplates_ok (markedTests suite) suite s' hnd hmnd hmem hok
  constructor
  · exact List.Nodup.sublist (generatedPairs_keys_sublist s') hnds'
  · intro q hq
    obtain ⟨mm, hmem'⟩ := generatedPairs_mem hq
    have hnot : ¬((q.1, Entry.func (some q.2) mm) ∈ suite) := by
      intro hc
      exact Bool.noConfusion (hnogen _ hc)
    obtain ⟨nm, mm', key, doc, hms, hqeq, hpre, hval⟩ := hnew _ hmem' hnot
    injection hqeq with h1 h2
    injection h2 with h3 h4
    injection h3 with h3
    rw [h1, h3]
    exact ⟨hpre, hval (hvalid (nm, mm') hms)⟩

/-- C3, witness: expanding `exSuite` produces the cases `test_x_1` and
`test_x_2`, distinct, identifier-shaped and both extending `test_x`. -/
theorem generated_names_wellformed_witness :
    ((generatedPairs exSuiteExpanded).map (·.1)).Nodup
    ∧ ∀ q ∈ generatedPairs exSuiteExpanded, (q.2 <+: q.1) ∧ validId q.1 = true :=
  generated_names_wellformed exSuite exSuiteExpanded (by decide) (by decide)
    (by decide) rfl

/-- C5: expansion is all-or-nothing.  Either some error propagates out of
`MultiTestMeta.__new__` — then no class object is constructed at all, so
no partially-expanded surface exists — or expansion succeeds, and then
the resulting surface accounts for every marked template being replaced
by all of its generated cases (the size bookkeeping
`|s'| + #templates = |suite| + Σ #combos` holds), its names are
collision-free, and every unmarked attribute survives unchanged. -/
theorem expansion_atomic (suite : Suite) (hnd : (keysOf suite).Nodup) :
    (∃ e, spawn suite = Except.error e)
    ∨ (∃ s', spawn suite = Except.ok s'
        ∧ s'.length + (markedTests suite).length
            = suite.length + ((markedTests suite).map (fun p => p.2.combos.length)).sum
        ∧ (keysOf s').Nodup
        ∧ (∀ q ∈ suite, flagged q.2 = false → q ∈ s')) := by
  cases hs : spawn suite with
  | error e => exact Or.inl ⟨e, rfl⟩
  | ok s' =>
    have hmnd : ((markedTests suite).map (·.1)).Nodup :=
      List.Nodup.sublist (markedTests_keys_sublist suite) hnd
    have hmem : ∀ p ∈ markedTests suite, ∃ e, (p.1, e) ∈ suite ∧ flagged e = true := by
      intro p hp
      obtain ⟨b, hb, hf⟩ := markedTests_mem hp
      exact ⟨Entry.func b p.2, hb, hf⟩
    obtain ⟨hnds', hlen, hpres, _⟩ :=
      spawnTemplates_ok (markedTests suite) suite s' hnd hmnd hmem hs
    exact Or.inr ⟨s', rfl, hlen, hnds', hpres⟩

/-- C5, witness: instantiation at the concrete suite `exSuite`. -/
theorem expansion_atomic_witness :
    (∃ e, spawn exSuite = Except.error e)
    ∨ (∃ s', spawn exSuite = Except.ok s'
        ∧ s'.length + (markedTests exSuite).length
            = exSuite.length + ((markedTests exSuite).map (fun p => p.2.combos.length)).sum
        ∧ (keysOf s').Nodup
        ∧ (∀ q ∈ exSuite, flagged q.2 = false → q ∈ s')) :=
  expansion_atomic exSuite (by decide)

/-- C9, counterexample: a template carrying the marker and one extra
metadata key.  The generated case's `__dict__` is the template's
`__dict__` itself (`actual_test.__dict__ = method.__dict__`, an aliasing
assignment, not a copy), and it still contains `_metatest_params`: the
combination specification is not excluded, so the generated case itself
is again a flagged template (with an exhausted generator). -/
theorem metadata_marker_retained :
    spawn exSuite9
      = Except.ok [(exName, Entry.func (some exName) ⟨some [], [], exMethod9.dict⟩)]
    ∧ markerName ∈ exMethod9.dict :=
  ⟨rfl, by decide⟩

/-- C9, amended: every generated case carries the template method's whole
`__dict__` — shared by reference, not copied — including the
`_metatest_params` combination-spec marker itself, so the generated case
also appears flagged (its shared generator, however, is exhausted and
yields no further combinations). -/
theorem case_metadata_shared (name : Str) (m : Method) (attrs : Suite)
    (combo : List Str × List (Str × Str)) (s' : Suite)
    (h : spawnCase name m attrs combo = Except.ok s') :
    ∃ key doc, s' = attrs ++ [(key, Entry.func (some name) ⟨some doc, [], m.dict⟩)] := by
  obtain ⟨key, doc, heq, _⟩ := spawnCase_ok_shape h
  exact ⟨key, doc, heq⟩

/-- C9, witness: instantiation at the concrete template of `exSuite9`. -/
theorem case_metadata_shared_witness :
    ∃ key doc, [(exName, Entry.func (some exName) ⟨some [], [], exMethod9.dict⟩)]
      = ([] : Suite) ++ [(key, Entry.func (some exName) ⟨some doc, [], exMethod9.dict⟩)] :=
  case_metadata_shared exName exMethod9 [] ([], [])
    [(exName, Entry.func (some exName) ⟨some [], [], exMethod9.dict⟩)] rfl

end Multitest
